import Mathlib

/-!
Verification development for the random-walker segmentation engine
(`random_walker.py`).

The numerical linear algebra performed by external libraries (scipy's
`factorized`/`cg`, pyamg) is abstracted by oracle parameters that supply,
for each label index, the solution vector of the reduced linear system
(and, for `cg`, the convergence info flag that scipy returns).  Everything
the repository's own code does around those calls — grid edge enumeration,
edge weighting, Laplacian assembly, the seed pre-pass, arg-max label
resolution, seed reinsertion, mode dispatch — is embedded directly from the
source.  Machine floats appear only in the edge-weight model, where IEEE
special values (`inf`, `nan`) are modelled explicitly by `FpVal`.
-/

/-- Python exception classes that the embedded pipeline can actually raise. -/
inductive PyErr where
  | valueError
  | importError
  | unboundLocal
  deriving DecidableEq

instance (ε α : Type) [DecidableEq ε] [DecidableEq α] : DecidableEq (Except ε α)
  | .ok a, .ok b =>
    match decEq a b with
    | .isTrue h => .isTrue (by rw [h])
    | .isFalse h => .isFalse (by intro hh; cases hh; exact h rfl)
  | .ok _, .error _ => .isFalse (by intro h; cases h)
  | .error _, .ok _ => .isFalse (by intro h; cases h)
  | .error a, .error b =>
    match decEq a b with
    | .isTrue h => .isTrue (by rw [h])
    | .isFalse h => .isFalse (by intro hh; cases hh; exact h rfl)

/-- Lexicographic (C-order) enumeration of the index triples of an
`a × b × c` grid, as produced by raveling a reshaped `arange`. -/
def gridTriples (a b c : ℕ) : List (ℕ × ℕ × ℕ) :=
  (List.range a).flatMap (fun x =>
    (List.range b).flatMap (fun y =>
      (List.range c).map (fun z => (x, y, z))))

/-- Flattened lattice index of cell `(x, y, z)` in an `n_x × n_y × n_z` grid:
`vertices = np.arange(n_x*n_y*n_z).reshape((n_x, n_y, n_z))`. -/
def vtx (ny nz x y z : ℕ) : ℕ := (x * ny + y) * nz + z

/-- `edges_deep` of `_make_edges_3d`: neighbours along the z axis. -/
def edgesDeep (nx ny nz : ℕ) : List (ℕ × ℕ) :=
  (gridTriples nx ny (nz - 1)).map (fun t =>
    (vtx ny nz t.1 t.2.1 t.2.2, vtx ny nz t.1 t.2.1 (t.2.2 + 1)))

/-- `edges_right` of `_make_edges_3d`: neighbours along the y axis. -/
def edgesRight (nx ny nz : ℕ) : List (ℕ × ℕ) :=
  (gridTriples nx (ny - 1) nz).map (fun t =>
    (vtx ny nz t.1 t.2.1 t.2.2, vtx ny nz t.1 (t.2.1 + 1) t.2.2))

/-- `edges_down` of `_make_edges_3d`: neighbours along the x axis. -/
def edgesDown (nx ny nz : ℕ) : List (ℕ × ℕ) :=
  (gridTriples (nx - 1) ny nz).map (fun t =>
    (vtx ny nz t.1 t.2.1 t.2.2, vtx ny nz (t.1 + 1) t.2.1 t.2.2))

/-- `_make_edges_3d(n_x, n_y, n_z)`: the hstack of deep, right and down
edges, in the source's order. -/
def make_edges_3d (nx ny nz : ℕ) : List (ℕ × ℕ) :=
  edgesDeep nx ny nz ++ edgesRight nx ny nz ++ edgesDown nx ny nz

/-- Coordinates `(x, y, z)` of a flattened lattice index. -/
def coordsOf (ny nz i : ℕ) : ℕ × ℕ × ℕ := (i / (ny * nz), i / nz % ny, i % nz)

/-- Axis adjacency (6-connectivity) of two flattened lattice indices:
the coordinate triples agree except on one axis, where they differ by 1. -/
def adj6 (ny nz i j : ℕ) : Bool :=
  let a := coordsOf ny nz i
  let b := coordsOf ny nz j
  decide ((a.1 = b.1 ∧ a.2.1 = b.2.1 ∧ (a.2.2 + 1 = b.2.2 ∨ b.2.2 + 1 = a.2.2)) ∨
          (a.1 = b.1 ∧ a.2.2 = b.2.2 ∧ (a.2.1 + 1 = b.2.1 ∨ b.2.1 + 1 = a.2.1)) ∨
          (a.2.1 = b.2.1 ∧ a.2.2 = b.2.2 ∧ (a.1 + 1 = b.1 ∨ b.1 + 1 = a.1)))

/-- `pixel_nb = edges.max() + 1` in `_make_laplacian_sparse`. -/
def pixelNb (edges : List (ℕ × ℕ)) : ℕ :=
  (edges.map (fun e => max e.1 e.2)).foldr max 0 + 1

/-- Entry `(i, j)` of the off-diagonal COO matrix of `_make_laplacian_sparse`:
each (edge, weight) pair deposits `-w` at `(e₁, e₂)` and at `(e₂, e₁)`,
duplicates summed, as `sparse.coo_matrix` does. -/
def lapOffdiagEntry (ews : List ((ℕ × ℕ) × ℚ)) (i j : ℕ) : ℚ :=
  (ews.map (fun ew =>
    (if ew.1.1 = i ∧ ew.1.2 = j then -ew.2 else 0) +
    (if ew.1.2 = i ∧ ew.1.1 = j then -ew.2 else 0))).sum

/-- `connect = -np.ravel(lap.sum(axis=1))`: the negated row sum of the
off-diagonal matrix, rows of width `n`. -/
def lapConnect (ews : List ((ℕ × ℕ) × ℚ)) (n i : ℕ) : ℚ :=
  -(∑ j ∈ Finset.range n, lapOffdiagEntry ews i j)

/-- Entry `(i, j)` of the matrix returned by `_make_laplacian_sparse`: the
off-diagonal COO entries plus, on the diagonal `diag = np.arange(pixel_nb)`,
the `connect` values. -/
def make_laplacian_sparse (edges : List (ℕ × ℕ)) (weights : List ℚ) (i j : ℕ) : ℚ :=
  lapOffdiagEntry (edges.zip weights) i j +
    (if i = j ∧ i < pixelNb edges then lapConnect (edges.zip weights) (pixelNb edges) i else 0)

/-- Maximum of a list of rationals (`0` for the empty list, never used there). -/
def listMax : List ℚ → ℚ
  | [] => 0
  | [x] => x
  | x :: y :: rest => max x (listMax (y :: rest))

/-- Index of the first occurrence of the maximum of a list: `np.argmax`'s
first-argmax tie-breaking convention. -/
def argmaxIdx : List ℚ → ℕ
  | [] => 0
  | [_] => 0
  | x :: y :: rest => if x < listMax (y :: rest) then argmaxIdx (y :: rest) + 1 else 0

/-- `np.argmax(X, axis=0)` for the `K × n` stack whose row `i` is `pots i`:
for each column `j`, the index of the first row attaining the column maximum. -/
def npArgmaxAxis0 (K n : ℕ) (pots : ℕ → List ℚ) : List ℕ :=
  (List.range n).map (fun j =>
    argmaxIdx ((List.range K).map (fun i => (pots i).getD j 0)))

/-- `_solve_bf(lap_sparse, B)`: one factorized solve per label (abstracted by
the `pots` oracle), then the in-solver `np.argmax(X, axis=0)`.  With `K = 0`
right-hand sides, `np.argmax` of the empty stack raises `ValueError`. -/
def solve_bf (pots : ℕ → List ℚ) (K n : ℕ) : Except PyErr (List ℕ) :=
  if K = 0 then .error .valueError
  else .ok (npArgmaxAxis0 K n pots)

/-- `_solve_cg(lap_sparse, B, tol)`: per-label `cg` solve; the oracle returns
scipy's `(x0, info)` pair and the source keeps only component `[0]`,
then applies the in-solver `np.argmax(X, axis=0)`. -/
def solve_cg (cgf : ℕ → List ℚ × ℤ) (K n : ℕ) : Except PyErr (List ℕ) :=
  if K = 0 then .error .valueError
  else .ok (npArgmaxAxis0 K n (fun i => (cgf i).1))

/-- `_solve_cg_mg(lap_sparse, B, tol)`: raises `ImportError` when pyamg is
absent, otherwise preconditioned `cg` per label (capped at 30 iterations),
keeping only component `[0]` of scipy's pair, then the in-solver argmax. -/
def solve_cg_mg (amgLoaded : Bool) (cgf : ℕ → List ℚ × ℤ) (K n : ℕ) :
    Except PyErr (List ℕ) :=
  if amgLoaded = false then .error .importError
  else if K = 0 then .error .valueError
  else .ok (npArgmaxAxis0 K n (fun i => (cgf i).1))

/-- Modelled from the spec's words for claim C1 only: the `(K × |unlabeled|)`
stack of potential fields that §4.5 says every solver returns.  This is the
spec-side definition of a refinement claim, to be compared with the
source-side `solve_bf`/`solve_cg`/`solve_cg_mg`. -/
def solverStack_spec (pots : ℕ → List ℚ) (K n : ℕ) : List (List ℚ) :=
  (List.range K).map (fun i => (pots i).take n)

/-- numpy's `astype(np.int)` on one value: C-style truncation toward zero. -/
def npAstypeInt (q : ℚ) : ℤ := Int.tdiv q.num q.den

/-- The propagation input `labels > 0` as a boolean image. -/
def seedFn (labels : List ℤ) (i : ℕ) : Bool := decide (0 < labels.getD i 0)

/-- The propagation mask `labels >= 0` as a boolean image. -/
def maskFn (labels : List ℤ) (i : ℕ) : Bool := decide (0 ≤ labels.getD i 0)

/-- One binary dilation step within the mask, structuring element of
connectivity 1 (the cell itself and its axis neighbours). -/
def dilateStep (N : ℕ) (adj : ℕ → ℕ → Bool) (mask s : ℕ → Bool) (i : ℕ) : Bool :=
  mask i && (s i || (List.range N).any (fun j => s j && adj j i))

/-- Model of `scipy.ndimage.binary_propagation(input, mask=mask)` (external
dependency): dilation within the mask iterated to saturation; `N` dilation
steps saturate a grid of `N` cells. -/
def binary_propagation (N : ℕ) (adj : ℕ → ℕ → Bool) (input mask : ℕ → Bool) :
    ℕ → Bool :=
  (fun s => dilateStep N adj mask s)^[N] (fun i => input i && mask i)

/-- A cell reachable from a seed cell through a path of mask cells. -/
inductive ReachSeed (adj : ℕ → ℕ → Bool) (mask seed : ℕ → Bool) : ℕ → Prop where
  | base (i : ℕ) (hs : seed i = true) (hm : mask i = true) :
      ReachSeed adj mask seed i
  | step (j i : ℕ) (hj : ReachSeed adj mask seed j) (ha : adj j i = true)
      (hm : mask i = true) : ReachSeed adj mask seed i

/-- The isolated-pixel pre-pass of `random_walker`: when any label is
negative, `filled = ndimage.binary_propagation(labels>0, mask=labels>=0)`
and zero labels outside `filled` are overwritten with `-1`. -/
def prePassLabels (N : ℕ) (adj : ℕ → ℕ → Bool) (labels : List ℤ) : List ℤ :=
  if labels.any (fun l => decide (l < 0)) then
    (List.range labels.length).map (fun i =>
      if binary_propagation N adj (seedFn labels) (maskFn labels) i = false ∧
          labels.getD i 0 = 0
      then -1 else labels.getD i 0)
  else labels

/-- `nlabels = labels.max()` over the kept entries `labels[labels >= 0]`
of `_buildAB` (the entries are nonnegative, so the fold base 0 is exact). -/
def nlabelsOf (labels : List ℤ) : ℤ :=
  (labels.filter (fun l => decide (0 ≤ l))).foldr max 0

/-- The number of unlabeled nodes `|labels == 0|` among the kept entries
`labels[labels >= 0]` of `_buildAB`: the size of the reduced system. -/
def unlabeledCount (labels : List ℤ) : ℕ :=
  (labels.filter (fun l => decide (0 ≤ l))).countP (fun l => decide (l = 0))

/-- `_clean_labels_ar(X, labels)`: scatter the entries of `X`, in order, into
the zero positions of the raveled label array (`labels[labels == 0] = X`). -/
def clean_labels_ar : List ℤ → List ℤ → List ℤ
  | _, [] => []
  | xs, l :: ls =>
      if l = 0 then xs.headD 0 :: clean_labels_ar xs.tail ls
      else l :: clean_labels_ar xs ls

/-- The mode dispatch of `random_walker`: three independent `if` tests; for
any other mode string no branch assigns `X`. -/
def modeDispatch (mode : String) (bfX : ℕ → List ℚ) (cgX mgX : ℕ → List ℚ × ℤ)
    (amgLoaded : Bool) (K n : ℕ) : Option (Except PyErr (List ℕ)) :=
  if mode = "cg" then some (solve_cg cgX K n)
  else if mode = "cg_mg" then some (solve_cg_mg amgLoaded mgX K n)
  else if mode = "bf" then some (solve_bf bfX K n)
  else none

/-- `random_walker(data, labels, beta, mode, tol)`.  The image data enters
only through the Laplacian that the solver oracles absorb, so it is not a
parameter here.  Steps, in source order: integer cast of the labels; the
isolated-pixel pre-pass; `_buildAB`'s label filtering (`labels.max()` on an
empty filtered array raises `ValueError`); mode dispatch (an unrecognised
mode leaves `X` unassigned, so `X + 1` raises `UnboundLocalError`);
`_clean_labels_ar(X + 1, labels)`; reshape to the input shape.
The label array as it stands after the integer cast and the pre-pass is
`adjLabels`, the state in which `random_walker` hands it to `_buildAB` and
`_clean_labels_ar`. -/
def adjLabels (nx ny nz : ℕ) (labelsIn : List ℚ) : List ℤ :=
  prePassLabels (nx * ny * nz) (adj6 ny nz) (labelsIn.map npAstypeInt)

def random_walker (nx ny nz : ℕ) (bfX : ℕ → List ℚ) (cgX mgX : ℕ → List ℚ × ℤ)
    (amgLoaded : Bool) (labelsIn : List ℚ) (mode : String) :
    Except PyErr (List ℤ) :=
  if (adjLabels nx ny nz labelsIn).filter (fun l => decide (0 ≤ l)) = [] then
    .error .valueError
  else
    match modeDispatch mode bfX cgX mgX amgLoaded
        (nlabelsOf (adjLabels nx ny nz labelsIn)).toNat
        (unlabeledCount (adjLabels nx ny nz labelsIn)) with
    | none => .error .unboundLocal
    | some (.error e) => .error e
    | some (.ok X) =>
        .ok (clean_labels_ar (X.map (fun v : ℕ => (v : ℤ) + 1))
          (adjLabels nx ny nz labelsIn))

/-- IEEE-754 double values as the edge-weight computation sees them: the
special values `nan`, `+inf`, `-inf`, and finite reals. -/
inductive FpVal where
  | nan
  | inf
  | ninf
  | fin (x : ℝ)

/-- IEEE negation. -/
noncomputable def fpNeg : FpVal → FpVal
  | .nan => .nan
  | .inf => .ninf
  | .ninf => .inf
  | .fin x => .fin (-x)

/-- IEEE addition. -/
noncomputable def fpAdd : FpVal → FpVal → FpVal
  | .nan, _ => .nan
  | _, .nan => .nan
  | .inf, .ninf => .nan
  | .ninf, .inf => .nan
  | .inf, .inf => .inf
  | .inf, .fin _ => .inf
  | .fin _, .inf => .inf
  | .ninf, .ninf => .ninf
  | .ninf, .fin _ => .ninf
  | .fin _, .ninf => .ninf
  | .fin x, .fin y => .fin (x + y)

/-- IEEE multiplication; in particular `0 * inf = nan`. -/
noncomputable def fpMul : FpVal → FpVal → FpVal
  | .nan, _ => .nan
  | _, .nan => .nan
  | .inf, .inf => .inf
  | .inf, .ninf => .ninf
  | .ninf, .inf => .ninf
  | .ninf, .ninf => .inf
  | .inf, .fin x => open Classical in if x = 0 then .nan else if 0 < x then .inf else .ninf
  | .fin x, .inf => open Classical in if x = 0 then .nan else if 0 < x then .inf else .ninf
  | .ninf, .fin x => open Classical in if x = 0 then .nan else if 0 < x then .ninf else .inf
  | .fin x, .ninf => open Classical in if x = 0 then .nan else if 0 < x then .ninf else .inf
  | .fin x, .fin y => .fin (x * y)

/-- IEEE division; in particular `positive / 0 = inf` (numpy emits a
`RuntimeWarning` and continues). -/
noncomputable def fpDiv : FpVal → FpVal → FpVal
  | .nan, _ => .nan
  | _, .nan => .nan
  | .inf, .inf => .nan
  | .inf, .ninf => .nan
  | .ninf, .inf => .nan
  | .ninf, .ninf => .nan
  | .inf, .fin x => open Classical in if 0 ≤ x then .inf else .ninf
  | .ninf, .fin x => open Classical in if 0 ≤ x then .ninf else .inf
  | .fin _, .inf => .fin 0
  | .fin _, .ninf => .fin 0
  | .fin x, .fin y =>
      open Classical in
      if y = 0 then (if x = 0 then .nan else if 0 < x then .inf else .ninf)
      else .fin (x / y)

/-- IEEE exponential: `exp nan = nan`, `exp (-inf) = 0`. -/
noncomputable def fpExp : FpVal → FpVal
  | .nan => .nan
  | .inf => .inf
  | .ninf => .fin 0
  | .fin x => .fin (Real.exp x)

/-- A finite non-zero float. -/
def FpVal.isFinNonzero : FpVal → Prop
  | .fin x => x ≠ 0
  | _ => False

/-- `np.std` of a flat data array: the square root of the mean squared
deviation from the mean. -/
noncomputable def npStd (l : List ℝ) : ℝ :=
  Real.sqrt ((l.map (fun x => (x - l.sum / l.length) ^ 2)).sum / l.length)

/-- `_compute_gradients_3d(data)`: `np.r_[gr_deep, gr_right, gr_down]`, the
absolute intensity differences along each axis in ravel order. -/
noncomputable def compute_gradients_3d (nx ny nz : ℕ) (data : ℕ → ℕ → ℕ → ℝ) :
    List ℝ :=
  (gridTriples nx ny (nz - 1)).map
    (fun t => |data t.1 t.2.1 t.2.2 - data t.1 t.2.1 (t.2.2 + 1)|) ++
  (gridTriples nx (ny - 1) nz).map
    (fun t => |data t.1 t.2.1 t.2.2 - data t.1 (t.2.1 + 1) t.2.2|) ++
  (gridTriples (nx - 1) ny nz).map
    (fun t => |data t.1 t.2.1 t.2.2 - data (t.1 + 1) t.2.1 t.2.2|)

/-- The flat data array `data.ravel()` used by `data.std()`. -/
noncomputable def flatData (nx ny nz : ℕ) (data : ℕ → ℕ → ℕ → ℝ) : List ℝ :=
  (gridTriples nx ny nz).map (fun t => data t.1 t.2.1 t.2.2)

/-- `_compute_weights_3d(edges, data, beta, eps)`: squared gradients, scaled
by `beta / (10 * data.std())` (an IEEE division that yields `inf` when the
image is constant), mapped through `exp(-·)` and floored by `+ eps`.  The
`edges` argument is unused, exactly as in the source. -/
noncomputable def compute_weights_3d (_edges : List (ℕ × ℕ)) (nx ny nz : ℕ)
    (data : ℕ → ℕ → ℕ → ℝ) (beta eps : ℝ) : List FpVal :=
  let gradients := (compute_gradients_3d nx ny nz data).map (fun g => g ^ 2)
  let betaScaled := fpDiv (.fin beta) (.fin (10 * npStd (flatData nx ny nz data)))
  (gradients.map (fun g => fpMul (.fin g) betaScaled)).map
    (fun g => fpAdd (fpExp (fpNeg g)) (.fin eps))

/-! ### Helper lemmas -/

theorem argmaxIdx_lt : ∀ (l : List ℚ), l ≠ [] → argmaxIdx l < l.length
  | [], h => absurd rfl h
  | [_], _ => by simp [argmaxIdx]
  | x :: y :: rest, _ => by
      rw [argmaxIdx]
      split
      · have h := argmaxIdx_lt (y :: rest) (by simp)
        simpa using Nat.succ_lt_succ h
      · simp

theorem npArgmaxAxis0_length (K n : ℕ) (pots : ℕ → List ℚ) :
    (npArgmaxAxis0 K n pots).length = n := by
  simp [npArgmaxAxis0]

theorem npArgmaxAxis0_mem_lt (K n : ℕ) (pots : ℕ → List ℚ) (hK : K ≠ 0) :
    ∀ v ∈ npArgmaxAxis0 K n pots, v < K := by
  intro v hv
  simp only [npArgmaxAxis0, List.mem_map, List.mem_range] at hv
  obtain ⟨j, -, hj⟩ := hv
  have hne : ((List.range K).map (fun i => (pots i).getD j 0)) ≠ [] := by
    intro hcon
    have hlen := congrArg List.length hcon
    simp at hlen
    exact hK hlen
  have h := argmaxIdx_lt _ hne
  rw [List.length_map, List.length_range] at h
  exact hj ▸ h

theorem le_foldr_max {α : Type} [LinearOrder α] (l : List α) (d : α) :
    ∀ x ∈ l, x ≤ l.foldr max d := by
  induction l with
  | nil => simp
  | cons a t ih =>
      intro x hx
      rcases List.mem_cons.1 hx with h | h
      · subst h; exact le_max_left _ _
      · exact le_trans (ih x h) (le_max_right _ _)

theorem init_le_foldr_max {α : Type} [LinearOrder α] (l : List α) (d : α) :
    d ≤ l.foldr max d := by
  induction l with
  | nil => simp
  | cons a t ih => exact le_trans ih (le_max_right _ _)

theorem getD_range_map {α : Type} (n i : ℕ) (f : ℕ → α) (d : α)
    (h : i < n) : ((List.range n).map f).getD i d = f i := by
  rw [List.getD_eq_getElem?_getD, List.getElem?_eq_getElem (by simpa using h)]
  simp

/-! ### Solver-level inversion lemmas -/

theorem solve_bf_ok (pots : ℕ → List ℚ) (K n : ℕ) (X : List ℕ)
    (h : solve_bf pots K n = .ok X) :
    K ≠ 0 ∧ X = npArgmaxAxis0 K n pots := by
  unfold solve_bf at h
  by_cases hK : K = 0
  · rw [if_pos hK] at h; cases h
  · rw [if_neg hK] at h
    injection h with h2
    exact ⟨hK, h2.symm⟩

theorem solve_cg_ok (cgf : ℕ → List ℚ × ℤ) (K n : ℕ) (X : List ℕ)
    (h : solve_cg cgf K n = .ok X) :
    K ≠ 0 ∧ X = npArgmaxAxis0 K n (fun i => (cgf i).1) := by
  unfold solve_cg at h
  by_cases hK : K = 0
  · rw [if_pos hK] at h; cases h
  · rw [if_neg hK] at h
    injection h with h2
    exact ⟨hK, h2.symm⟩

theorem solve_cg_mg_ok (amg : Bool) (cgf : ℕ → List ℚ × ℤ) (K n : ℕ) (X : List ℕ)
    (h : solve_cg_mg amg cgf K n = .ok X) :
    K ≠ 0 ∧ X = npArgmaxAxis0 K n (fun i => (cgf i).1) := by
  unfold solve_cg_mg at h
  by_cases ha : amg = false
  · rw [if_pos ha] at h; cases h
  · rw [if_neg ha] at h
    by_cases hK : K = 0
    · rw [if_pos hK] at h; cases h
    · rw [if_neg hK] at h
      injection h with h2
      exact ⟨hK, h2.symm⟩

theorem modeDispatch_ok (mode : String) (bfX : ℕ → List ℚ)
    (cgX mgX : ℕ → List ℚ × ℤ) (amg : Bool) (K n : ℕ) (X : List ℕ)
    (h : modeDispatch mode bfX cgX mgX amg K n = some (.ok X)) :
    K ≠ 0 ∧ ∃ pots, X = npArgmaxAxis0 K n pots := by
  unfold modeDispatch at h
  by_cases h1 : mode = "cg"
  · rw [if_pos h1] at h
    obtain ⟨hK, hX⟩ := solve_cg_ok cgX K n X (Option.some.inj h)
    exact ⟨hK, _, hX⟩
  · rw [if_neg h1] at h
    by_cases h2 : mode = "cg_mg"
    · rw [if_pos h2] at h
      obtain ⟨hK, hX⟩ := solve_cg_mg_ok amg mgX K n X (Option.some.inj h)
      exact ⟨hK, _, hX⟩
    · rw [if_neg h2] at h
      by_cases h3 : mode = "bf"
      · rw [if_pos h3] at h
        obtain ⟨hK, hX⟩ := solve_bf_ok bfX K n X (Option.some.inj h)
        exact ⟨hK, _, hX⟩
      · rw [if_neg h3] at h; cases h

theorem random_walker_ok_inv (nx ny nz : ℕ) (bfX : ℕ → List ℚ)
    (cgX mgX : ℕ → List ℚ × ℤ) (amg : Bool) (labelsIn : List ℚ) (mode : String)
    (out : List ℤ)
    (hok : random_walker nx ny nz bfX cgX mgX amg labelsIn mode = .ok out) :
    ∃ X, modeDispatch mode bfX cgX mgX amg
        (nlabelsOf (adjLabels nx ny nz labelsIn)).toNat
        (unlabeledCount (adjLabels nx ny nz labelsIn)) = some (.ok X) ∧
      out = clean_labels_ar (X.map (fun v : ℕ => (v : ℤ) + 1))
        (adjLabels nx ny nz labelsIn) := by
  unfold random_walker at hok
  by_cases hf : (adjLabels nx ny nz labelsIn).filter (fun l => decide (0 ≤ l)) = []
  · rw [if_pos hf] at hok; cases hok
  · rw [if_neg hf] at hok
    revert hok
    cases hmd : modeDispatch mode bfX cgX mgX amg
        (nlabelsOf (adjLabels nx ny nz labelsIn)).toNat
        (unlabeledCount (adjLabels nx ny nz labelsIn)) with
    | none => intro hok; cases hok
    | some r =>
        cases r with
        | error e => intro hok; cases hok
        | ok X =>
            intro hok
            injection hok with h2
            exact ⟨X, rfl, h2.symm⟩

/-! ### Resolver-level lemmas -/

theorem clean_labels_ar_length : ∀ (xs ls : List ℤ),
    (clean_labels_ar xs ls).length = ls.length
  | _, [] => rfl
  | xs, l :: ls => by
      rw [clean_labels_ar]
      split
      · simpa using clean_labels_ar_length xs.tail ls
      · simpa using clean_labels_ar_length xs ls

theorem clean_labels_ar_getD_ne : ∀ (xs ls : List ℤ) (i : ℕ),
    ls.getD i 0 ≠ 0 → (clean_labels_ar xs ls).getD i 0 = ls.getD i 0
  | _, [], _, _ => rfl
  | xs, l :: ls, 0, h => by
      rw [clean_labels_ar]
      split
      · rw [List.getD_cons_zero] at h
        simp_all
      · simp
  | xs, l :: ls, i + 1, h => by
      rw [clean_labels_ar]
      rw [List.getD_cons_succ] at h
      split
      · rw [List.getD_cons_succ]
        exact clean_labels_ar_getD_ne xs.tail ls i h
      · rw [List.getD_cons_succ]
        exact clean_labels_ar_getD_ne xs ls i h

theorem clean_labels_ar_getD_mem : ∀ (xs ls : List ℤ) (i : ℕ),
    i < ls.length → ls.getD i 0 = 0 →
    ls.countP (fun l => decide (l = 0)) ≤ xs.length →
    (clean_labels_ar xs ls).getD i 0 ∈ xs
  | _, [], i, hi, _, _ => absurd hi (by simp)
  | xs, l :: ls, 0, _, h0, hc => by
      rw [List.getD_cons_zero] at h0
      rw [clean_labels_ar, if_pos h0]
      rw [List.getD_cons_zero]
      have hxs : xs ≠ [] := by
        intro hcon
        subst hcon
        rw [List.countP_cons, if_pos (by simpa using h0)] at hc
        simp at hc
      cases xs with
      | nil => exact absurd rfl hxs
      | cons a t => simp
  | xs, l :: ls, i + 1, hi, h0, hc => by
      rw [List.getD_cons_succ] at h0
      rw [clean_labels_ar]
      split
      · rw [List.getD_cons_succ]
        rename_i hl
        have hrec := clean_labels_ar_getD_mem xs.tail ls i (by simpa using hi) h0
          (by
            rw [List.countP_cons, if_pos (by simpa using hl)] at hc
            cases xs with
            | nil => simp at hc
            | cons a t => simpa using Nat.le_of_succ_le_succ (by simpa using hc))
        cases xs with
        | nil => simpa using hrec
        | cons a t => exact List.mem_of_mem_tail hrec
      · rw [List.getD_cons_succ]
        rename_i hl
        exact clean_labels_ar_getD_mem xs ls i (by simpa using hi) h0
          (by rw [List.countP_cons, if_neg (by simpa using hl)] at hc; simpa using hc)

theorem prePassLabels_length (N : ℕ) (adj : ℕ → ℕ → Bool) (labels : List ℤ) :
    (prePassLabels N adj labels).length = labels.length := by
  unfold prePassLabels
  split
  · simp
  · rfl

theorem prePassLabels_getD_ne (N : ℕ) (adj : ℕ → ℕ → Bool) (labels : List ℤ)
    (i : ℕ) (h : labels.getD i 0 ≠ 0) :
    (prePassLabels N adj labels).getD i 0 = labels.getD i 0 := by
  have hi : i < labels.length := by
    by_contra hcon
    apply h
    rw [List.getD_eq_getElem?_getD, List.getElem?_eq_none (by omega)]
    rfl
  unfold prePassLabels
  split
  · rw [getD_range_map _ _ _ _ hi]
    rw [if_neg (by intro hcon; exact h hcon.2)]
  · rfl

theorem getD_mem_of_lt (l : List ℤ) (i : ℕ) (h : i < l.length) :
    l.getD i 0 ∈ l := by
  rw [List.getD_eq_getElem?_getD, List.getElem?_eq_getElem h]
  exact List.getElem_mem h

theorem adjLabels_seed_mem (nx ny nz : ℕ) (labelsIn : List ℚ) (q : ℚ)
    (hq : q ∈ labelsIn) (h1 : 1 ≤ npAstypeInt q) :
    ∃ z ∈ adjLabels nx ny nz labelsIn, 1 ≤ z := by
  obtain ⟨i, hi, hz⟩ := List.mem_iff_getElem.1 (List.mem_map_of_mem npAstypeInt hq)
  have hd : (labelsIn.map npAstypeInt).getD i 0 = npAstypeInt q := by
    rw [List.getD_eq_getElem?_getD, List.getElem?_eq_getElem hi]
    simpa using hz
  have hne : (labelsIn.map npAstypeInt).getD i 0 ≠ 0 := by
    rw [hd]; omega
  have hp := prePassLabels_getD_ne (nx * ny * nz) (adj6 ny nz) _ i hne
  have hlen : i < (adjLabels nx ny nz labelsIn).length := by
    rw [adjLabels, prePassLabels_length]
    simpa using hi
  refine ⟨(adjLabels nx ny nz labelsIn).getD i 0, getD_mem_of_lt _ i hlen, ?_⟩
  rw [adjLabels, hp, hd]
  exact h1

theorem filter_nonneg_ne_nil (l : List ℤ) (z : ℤ) (hz : z ∈ l) (h1 : 1 ≤ z) :
    l.filter (fun v => decide (0 ≤ v)) ≠ [] :=
  List.ne_nil_of_mem (List.mem_filter.2 ⟨hz, by simpa using le_trans (by omega) h1⟩)

/-! ### Claim C1 -/

/-- Claim C1, as stated, is false: the solver step does not return a
`K × |unlabeled|` stack of potential fields with the arg-max downstream.
Two bf oracles whose per-label solution stacks differ (`[[3],[7]]` versus
`[[1],[9]]`, so the spec-side `solverStack_spec` values differ) produce the
same solver output `[1]` — a single length-`|unlabeled|` vector of label
indices — so the potentials are not part of the solver's return value and
no downstream arg-max is possible. -/
theorem c1_counterexample :
    solve_bf (fun i => if i = 0 then [(3 : ℚ)] else [(7 : ℚ)]) 2 1 = .ok [1] ∧
    solve_bf (fun i => if i = 0 then [(1 : ℚ)] else [(9 : ℚ)]) 2 1 = .ok [1] ∧
    solverStack_spec (fun i => if i = 0 then [(3 : ℚ)] else [(7 : ℚ)]) 2 1 ≠
      solverStack_spec (fun i => if i = 0 then [(1 : ℚ)] else [(9 : ℚ)]) 2 1 :=
  ⟨by decide, by decide, by decide⟩

/-- Claim C1, amended: for every oracle and every `K ≥ 1`, all three solver
modes return the same length-`|unlabeled|` vector of arg-max label indices
(entries in `0..K-1`) computed from the per-label solutions — the arg-max
resolution happens inside each solver, and only the `+1` offset and the
seed/prune reinsertion happen downstream. -/
theorem c1_amended (K n : ℕ) (pots : ℕ → List ℚ) (cgInfo mgInfo : ℕ → ℤ)
    (hK : K ≠ 0) :
    solve_bf pots K n = .ok (npArgmaxAxis0 K n pots) ∧
    solve_cg (fun i => (pots i, cgInfo i)) K n = .ok (npArgmaxAxis0 K n pots) ∧
    solve_cg_mg true (fun i => (pots i, mgInfo i)) K n =
      .ok (npArgmaxAxis0 K n pots) ∧
    (npArgmaxAxis0 K n pots).length = n ∧
    ∀ v ∈ npArgmaxAxis0 K n pots, v < K := by
  refine ⟨?_, ?_, ?_, npArgmaxAxis0_length K n pots, npArgmaxAxis0_mem_lt K n pots hK⟩
  · unfold solve_bf; rw [if_neg hK]
  · unfold solve_cg; rw [if_neg hK]
  · unfold solve_cg_mg; rw [if_neg (by simp), if_neg hK]

/-- Witness for `c1_amended` at `K = 2`, `n = 2`. -/
theorem c1_witness :
    solve_bf (fun _ => [(0 : ℚ), 1]) 2 2 =
      .ok (npArgmaxAxis0 2 2 (fun _ => [(0 : ℚ), 1])) :=
  (c1_amended 2 2 (fun _ => [(0 : ℚ), 1]) (fun _ => 0) (fun _ => 0) (by decide)).1

/-! ### Claim C4 -/

/-- Claim C4, as stated, is false: a `cg` oracle that reports
nonconvergence (scipy `info = 1`, iteration cap hit before `tol`) still
yields a normal solver result — the truncated iterate's arg-max — equal to
the result for a converged oracle with the same iterate, in both `cg` and
`cg_mg` modes; no `NumericalNonConvergence` error is surfaced. -/
theorem c4_counterexample :
    solve_cg (fun _ => ([(2 : ℚ)], 1)) 1 1 = .ok [0] ∧
    solve_cg (fun _ => ([(2 : ℚ)], 1)) 1 1 =
      solve_cg (fun _ => ([(2 : ℚ)], 0)) 1 1 ∧
    solve_cg_mg true (fun _ => ([(2 : ℚ)], 1)) 1 1 = .ok [0] :=
  ⟨by decide, by decide, by decide⟩

/-- Claim C4, amended: the convergence info flag returned by the
conjugate-gradient routine is discarded (`cg(...)[0]`): the output of the
`cg` and `cg_mg` solvers depends only on the returned iterates, and
whenever `K ≥ 1` the solve returns a normal result, so nonconvergence is
never surfaced to the caller. -/
theorem c4_amended (K n : ℕ) (f g : ℕ → List ℚ × ℤ)
    (hfg : ∀ i, (f i).1 = (g i).1) :
    solve_cg f K n = solve_cg g K n ∧
    solve_cg_mg true f K n = solve_cg_mg true g K n ∧
    (K ≠ 0 → ∃ X, solve_cg f K n = .ok X) := by
  have hpots : (fun i => (f i).1) = (fun i => (g i).1) := funext hfg
  refine ⟨?_, ?_, ?_⟩
  · unfold solve_cg; rw [hpots]
  · unfold solve_cg_mg; rw [hpots]
  · intro hK
    exact ⟨_, by unfold solve_cg; rw [if_neg hK]⟩

/-- Witness for `c4_amended`: oracles differing only in the info flag. -/
theorem c4_witness :
    solve_cg (fun _ => ([(5 : ℚ)], 1)) 1 1 = solve_cg (fun _ => ([(5 : ℚ)], 0)) 1 1 :=
  (c4_amended 1 1 (fun _ => ([(5 : ℚ)], 1)) (fun _ => ([(5 : ℚ)], 0))
    (fun _ => rfl)).1

/-! ### Claim C10 -/

/-- Claim C10: for a mode outside `{cg, cg_mg, bf}`, `random_walker` never
returns a label map — no solver branch is taken — and (for any input whose
cast labels contain a seed, so that execution reaches the dispatch) the
call fails with the unbound-name error raised by `X + 1`, instead of
falling back to a default mode. -/
theorem c10_invalid_mode (nx ny nz : ℕ) (bfX : ℕ → List ℚ)
    (cgX mgX : ℕ → List ℚ × ℤ) (amg : Bool) (labelsIn : List ℚ) (mode : String)
    (h1 : mode ≠ "cg") (h2 : mode ≠ "cg_mg") (h3 : mode ≠ "bf") :
    (∀ out, random_walker nx ny nz bfX cgX mgX amg labelsIn mode ≠ .ok out) ∧
    ((∃ q ∈ labelsIn, 1 ≤ npAstypeInt q) →
      random_walker nx ny nz bfX cgX mgX amg labelsIn mode =
        .error .unboundLocal) := by
  have hmd : modeDispatch mode bfX cgX mgX amg
      (nlabelsOf (adjLabels nx ny nz labelsIn)).toNat
      (unlabeledCount (adjLabels nx ny nz labelsIn)) = none := by
    unfold modeDispatch
    rw [if_neg h1, if_neg h2, if_neg h3]
  constructor
  · intro out hok
    obtain ⟨X, hX, -⟩ := random_walker_ok_inv _ _ _ _ _ _ _ _ _ _ hok
    rw [hmd] at hX
    cases hX
  · rintro ⟨q, hq, hq1⟩
    obtain ⟨z, hz, hz1⟩ := adjLabels_seed_mem nx ny nz labelsIn q hq hq1
    unfold random_walker
    rw [if_neg (filter_nonneg_ne_nil _ z hz hz1), hmd]

/-- Witness for `c10_invalid_mode` at the unrecognised mode `"direct"`. -/
theorem c10_witness :
    random_walker 2 1 1 (fun _ => []) (fun _ => ([], 0)) (fun _ => ([], 0)) true
      [1, 0] "direct" = .error .unboundLocal :=
  (c10_invalid_mode 2 1 1 (fun _ => []) (fun _ => ([], 0)) (fun _ => ([], 0))
    true [1, 0] "direct" (by decide) (by decide) (by decide)).2
    ⟨1, by decide, by decide⟩

/-! ### Pipeline-level helper lemmas -/

theorem foldr_max_le {α : Type} [LinearOrder α] (l : List α) (d c : α)
    (hd : d ≤ c) (h : ∀ x ∈ l, x ≤ c) : l.foldr max d ≤ c := by
  induction l with
  | nil => simpa using hd
  | cons a t ih =>
      simp only [List.foldr_cons]
      exact max_le (h a (by simp)) (ih (fun x hx => h x (List.mem_cons_of_mem a hx)))

theorem nlabelsOf_nonneg (l : List ℤ) : 0 ≤ nlabelsOf l :=
  init_le_foldr_max _ 0

theorem mem_le_nlabelsOf (l : List ℤ) (z : ℤ) (hz : z ∈ l) (h0 : 0 ≤ z) :
    z ≤ nlabelsOf l :=
  le_foldr_max _ 0 z (List.mem_filter.2 ⟨hz, by simpa using h0⟩)

theorem unlabeledCount_eq_countP (l : List ℤ) :
    unlabeledCount l = l.countP (fun v => decide (v = 0)) := by
  unfold unlabeledCount
  rw [List.countP_filter]
  apply List.countP_congr
  intro v _
  by_cases h : v = 0 <;> simp [h]

theorem npAstypeInt_intCast (z : ℤ) : npAstypeInt (z : ℚ) = z := by
  unfold npAstypeInt
  rw [Rat.intCast_num, Rat.intCast_den]
  exact Int.tdiv_one z

theorem map_npAstypeInt_intCast (lz : List ℤ) :
    (lz.map (fun z : ℤ => (z : ℚ))).map npAstypeInt = lz := by
  rw [List.map_map]
  have h : (npAstypeInt ∘ fun z : ℤ => (z : ℚ)) = id :=
    funext (fun z => npAstypeInt_intCast z)
  rw [h, List.map_id]

theorem adjLabels_length (nx ny nz : ℕ) (labelsIn : List ℚ) :
    (adjLabels nx ny nz labelsIn).length = labelsIn.length := by
  rw [adjLabels, prePassLabels_length, List.length_map]

theorem adjLabels_intCast (nx ny nz : ℕ) (lz : List ℤ) :
    adjLabels nx ny nz (lz.map (fun z : ℤ => (z : ℚ))) =
      prePassLabels (nx * ny * nz) (adj6 ny nz) lz := by
  rw [adjLabels, map_npAstypeInt_intCast]

/-! ### Claim C2 -/

/-- Claim C2, as stated, is false: the output of `random_walker` can hold
`-1`.  On a `2 × 2` image with seeds `1`, `2`, one unlabeled cell and one
`-1` (pruned) cell, the bf-mode segmentation returns `[1, 2, 2, -1]`: the
pruned cell keeps `-1` in the output, because `_clean_labels_ar` replaces
only the zero entries of the label array. -/
theorem c2_counterexample :
    random_walker 2 2 1 (fun i => if i = 0 then [0] else [1])
      (fun _ => ([], 0)) (fun _ => ([], 0)) true
      [1, 2, 0, -1] "bf" = .ok [1, 2, 2, -1] ∧
    (-1 : ℤ) ∈ ([1, 2, 2, -1] : List ℤ) :=
  ⟨by decide, by decide⟩

/-- Claim C2, amended: whenever `random_walker` returns a label map, it has
the same length as the input, and every cell holds either a value in
`1..K` (where `K = nlabelsOf` is the maximum label of the adjusted seed
array) — this covers every cell that is not pruned — or the pruned cell's
own negative marker, unchanged from the adjusted input; no cell holds `0`. -/
theorem c2_amended (nx ny nz : ℕ) (bfX : ℕ → List ℚ) (cgX mgX : ℕ → List ℚ × ℤ)
    (amg : Bool) (labelsIn : List ℚ) (mode : String) (out : List ℤ)
    (hok : random_walker nx ny nz bfX cgX mgX amg labelsIn mode = .ok out) :
    out.length = labelsIn.length ∧
    ∀ i, i < labelsIn.length →
      (1 ≤ out.getD i 0 ∧ out.getD i 0 ≤ nlabelsOf (adjLabels nx ny nz labelsIn)) ∨
      (out.getD i 0 < 0 ∧
        out.getD i 0 = (adjLabels nx ny nz labelsIn).getD i 0) := by
  obtain ⟨X, hX, hout⟩ := random_walker_ok_inv _ _ _ _ _ _ _ _ _ _ hok
  obtain ⟨hK, pots, hXval⟩ := modeDispatch_ok _ _ _ _ _ _ _ _ hX
  subst hXval
  subst hout
  have hAlen : (adjLabels nx ny nz labelsIn).length = labelsIn.length :=
    adjLabels_length nx ny nz labelsIn
  constructor
  · rw [clean_labels_ar_length, hAlen]
  · intro i hi
    have hiA : i < (adjLabels nx ny nz labelsIn).length := by omega
    by_cases hA : (adjLabels nx ny nz labelsIn).getD i 0 = 0
    · left
      have hcount : (adjLabels nx ny nz labelsIn).countP (fun v => decide (v = 0)) ≤
          ((npArgmaxAxis0 (nlabelsOf (adjLabels nx ny nz labelsIn)).toNat
            (unlabeledCount (adjLabels nx ny nz labelsIn)) pots).map
              (fun v : ℕ => (v : ℤ) + 1)).length := by
        rw [List.length_map, npArgmaxAxis0_length, unlabeledCount_eq_countP]
      have hmem := clean_labels_ar_getD_mem _ _ i hiA hA hcount
      simp only [List.mem_map] at hmem
      obtain ⟨v, hv, hveq⟩ := hmem
      have hvlt := npArgmaxAxis0_mem_lt _ _ pots hK v hv
      have hKz : ((nlabelsOf (adjLabels nx ny nz labelsIn)).toNat : ℤ) =
          nlabelsOf (adjLabels nx ny nz labelsIn) :=
        Int.toNat_of_nonneg (nlabelsOf_nonneg _)
      constructor
      · omega
      · rw [← hveq, ← hKz]
        omega
    · have hpres := clean_labels_ar_getD_ne
        ((npArgmaxAxis0 (nlabelsOf (adjLabels nx ny nz labelsIn)).toNat
          (unlabeledCount (adjLabels nx ny nz labelsIn)) pots).map
            (fun v : ℕ => (v : ℤ) + 1)) _ i hA
      rw [hpres]
      by_cases hpos : 0 < (adjLabels nx ny nz labelsIn).getD i 0
      · left
        refine ⟨by omega, ?_⟩
        exact mem_le_nlabelsOf _ _ (getD_mem_of_lt _ i hiA) (by omega)
      · right
        exact ⟨by omega, rfl⟩

/-- Witness for `c2_amended` on a concrete bf-mode run. -/
theorem c2_witness :
    ([1, 2, 2, -1] : List ℤ).length = ([(1 : ℚ), 2, 0, -1] : List ℚ).length ∧
    ∀ i, i < ([(1 : ℚ), 2, 0, -1] : List ℚ).length →
      (1 ≤ ([1, 2, 2, -1] : List ℤ).getD i 0 ∧
        ([1, 2, 2, -1] : List ℤ).getD i 0 ≤
          nlabelsOf (adjLabels 2 2 1 [(1 : ℚ), 2, 0, -1])) ∨
      (([1, 2, 2, -1] : List ℤ).getD i 0 < 0 ∧
        ([1, 2, 2, -1] : List ℤ).getD i 0 =
          (adjLabels 2 2 1 [(1 : ℚ), 2, 0, -1]).getD i 0) :=
  c2_amended 2 2 1 (fun i => if i = 0 then [0] else [1])
    (fun _ => ([], 0)) (fun _ => ([], 0)) true
    [(1 : ℚ), 2, 0, -1] "bf" [1, 2, 2, -1] (by decide)

/-! ### Claim C7 -/

/-- Claim C7: whenever `random_walker` returns a label map, every cell that
carries a positive seed label in the input keeps exactly that label in the
output, and every cell that is `-1` in the pre-pass-adjusted label array
(`adjLabels`) is `-1` in the output: `_clean_labels_ar` overwrites only the
zero cells. -/
theorem c7_seeds_preserved (nx ny nz : ℕ) (bfX : ℕ → List ℚ)
    (cgX mgX : ℕ → List ℚ × ℤ) (amg : Bool) (labelsZ : List ℤ) (mode : String)
    (out : List ℤ)
    (hok : random_walker nx ny nz bfX cgX mgX amg
      (labelsZ.map (fun z : ℤ => (z : ℚ))) mode = .ok out) (i : ℕ) :
    (0 < labelsZ.getD i 0 → out.getD i 0 = labelsZ.getD i 0) ∧
    ((adjLabels nx ny nz (labelsZ.map (fun z : ℤ => (z : ℚ)))).getD i 0 = -1 →
      out.getD i 0 = -1) := by
  obtain ⟨X, hX, hout⟩ := random_walker_ok_inv _ _ _ _ _ _ _ _ _ _ hok
  subst hout
  constructor
  · intro hpos
    have hpre : (adjLabels nx ny nz (labelsZ.map (fun z : ℤ => (z : ℚ)))).getD i 0 =
        labelsZ.getD i 0 := by
      rw [adjLabels_intCast]
      exact prePassLabels_getD_ne _ _ _ i (by omega)
    rw [clean_labels_ar_getD_ne _ _ i (by rw [hpre]; omega), hpre]
  · intro hneg
    rw [clean_labels_ar_getD_ne _ _ i (by rw [hneg]; omega), hneg]

/-- Witness for `c7_seeds_preserved` on a concrete cg-mode run, seed cell 3. -/
theorem c7_witness :
    ([1, 1, 2, 2] : List ℤ).getD 3 0 = ([1, 0, 0, 2] : List ℤ).getD 3 0 :=
  (c7_seeds_preserved 2 2 1 (fun _ => [])
    (fun i => (if i = 0 then [1, 0] else [0, 1], 0)) (fun _ => ([], 0)) true
    [1, 0, 0, 2] "cg" [1, 1, 2, 2] (by decide) 3).1 (by decide)

/-! ### Claim C8 -/

/-- Claim C8, as stated, is false: `random_walker` performs no seed
validation.  A seed array containing the non-integer `3/2` (denominator 2,
so not an integer cast) and the negative value `-2` (which is neither `-1`
nor allowed by the claim) is not rejected: the call proceeds and returns a
normal label map, with `3/2` truncated to the seed `1` and `-2` carried
through as a pruned marker. -/
theorem c8_counterexample :
    ((⟨3, 2, by decide, by decide⟩ : ℚ).den ≠ 1) ∧
    ((-2 : ℚ) < 0 ∧ (-2 : ℚ) ≠ -1) ∧
    random_walker 2 2 1 (fun _ => [0, 0]) (fun _ => ([], 0)) (fun _ => ([], 0))
      true [⟨3, 2, by decide, by decide⟩, -2, 0, 0] "bf" = .ok [1, -2, 1, 1] :=
  ⟨by decide, ⟨by decide, by decide⟩, by decide⟩

/-- Claim C8, amended: no `InvalidInput` validation exists.  Non-integer
seed values are truncated toward zero by the `astype(int)` cast and
negative values other than `-1` are treated like pruned cells, so any seed
array with at least one entry whose truncation is `≥ 1` proceeds to a
normal bf-mode result; and when every entry truncates to `0` (no seeds at
all) the call still proceeds into the solver, where the arg-max over the
empty stack of right-hand sides raises a plain `ValueError`, not
`InvalidInput`. -/
theorem c8_amended (nx ny nz : ℕ) (bfX : ℕ → List ℚ) (cgX mgX : ℕ → List ℚ × ℤ)
    (amg : Bool) (labelsIn : List ℚ) :
    (labelsIn ≠ [] → (∀ q ∈ labelsIn, npAstypeInt q = 0) →
      random_walker nx ny nz bfX cgX mgX amg labelsIn "bf" =
        .error .valueError) ∧
    ((∃ q ∈ labelsIn, 1 ≤ npAstypeInt q) →
      ∃ out, random_walker nx ny nz bfX cgX mgX amg labelsIn "bf" = .ok out) := by
  constructor
  · intro hne hz
    have hM0 : ∀ z ∈ labelsIn.map npAstypeInt, z = 0 := by
      intro z hzm
      obtain ⟨q, hq, hqz⟩ := List.mem_map.1 hzm
      rw [← hqz]
      exact hz q hq
    have hnoneg : ¬((labelsIn.map npAstypeInt).any (fun l => decide (l < 0)) = true) := by
      intro hcon
      simp only [List.any_eq_true, decide_eq_true_eq] at hcon
      obtain ⟨l, hl, hlt⟩ := hcon
      have := hM0 l hl
      omega
    have hpre : adjLabels nx ny nz labelsIn = labelsIn.map npAstypeInt := by
      rw [adjLabels]
      unfold prePassLabels
      rw [if_neg hnoneg]
    have hfil : (labelsIn.map npAstypeInt).filter (fun v => decide (0 ≤ v)) =
        labelsIn.map npAstypeInt :=
      List.filter_eq_self.2 (fun a ha => by simp [hM0 a ha])
    have hfne : (adjLabels nx ny nz labelsIn).filter (fun v => decide (0 ≤ v)) ≠ [] := by
      rw [hpre, hfil]
      simpa using hne
    have hK0 : nlabelsOf (adjLabels nx ny nz labelsIn) = 0 := by
      rw [hpre]
      unfold nlabelsOf
      rw [hfil]
      exact le_antisymm
        (foldr_max_le _ 0 0 le_rfl (fun x hx => le_of_eq (hM0 x hx)))
        (init_le_foldr_max _ 0)
    have hmd : modeDispatch "bf" bfX cgX mgX amg
        (nlabelsOf (adjLabels nx ny nz labelsIn)).toNat
        (unlabeledCount (adjLabels nx ny nz labelsIn)) =
          some (.error .valueError) := by
      unfold modeDispatch
      rw [if_neg (by decide), if_neg (by decide), if_pos rfl]
      rw [hK0]
      rfl
    unfold random_walker
    rw [if_neg hfne, hmd]
  · rintro ⟨q, hq, hq1⟩
    obtain ⟨z, hz, hz1⟩ := adjLabels_seed_mem nx ny nz labelsIn q hq hq1
    have hfne := filter_nonneg_ne_nil _ z hz hz1
    have hKpos : 1 ≤ nlabelsOf (adjLabels nx ny nz labelsIn) :=
      le_trans hz1 (mem_le_nlabelsOf _ z hz (by omega))
    have hKne : (nlabelsOf (adjLabels nx ny nz labelsIn)).toNat ≠ 0 := by omega
    have hmd : modeDispatch "bf" bfX cgX mgX amg
        (nlabelsOf (adjLabels nx ny nz labelsIn)).toNat
        (unlabeledCount (adjLabels nx ny nz labelsIn)) =
          some (.ok (npArgmaxAxis0 (nlabelsOf (adjLabels nx ny nz labelsIn)).toNat
            (unlabeledCount (adjLabels nx ny nz labelsIn)) bfX)) := by
      unfold modeDispatch
      rw [if_neg (by decide), if_neg (by decide), if_pos rfl]
      unfold solve_bf
      rw [if_neg hKne]
    refine ⟨clean_labels_ar
      ((npArgmaxAxis0 (nlabelsOf (adjLabels nx ny nz labelsIn)).toNat
        (unlabeledCount (adjLabels nx ny nz labelsIn)) bfX).map
          (fun v : ℕ => (v : ℤ) + 1)) (adjLabels nx ny nz labelsIn), ?_⟩
    unfold random_walker
    rw [if_neg hfne, hmd]

/-- Witness for `c8_amended`: a seedless array fails with `ValueError`, a
seeded one proceeds to a normal result. -/
theorem c8_witness :
    random_walker 2 1 1 (fun _ => [0]) (fun _ => ([], 0)) (fun _ => ([], 0))
      true [0, 0] "bf" = .error .valueError ∧
    ∃ out, random_walker 2 1 1 (fun _ => [0]) (fun _ => ([], 0))
      (fun _ => ([], 0)) true [1, 0] "bf" = .ok out :=
  ⟨(c8_amended 2 1 1 (fun _ => [0]) (fun _ => ([], 0)) (fun _ => ([], 0))
      true [0, 0]).1 (by decide) (by decide),
   (c8_amended 2 1 1 (fun _ => [0]) (fun _ => ([], 0)) (fun _ => ([], 0))
      true [1, 0]).2 ⟨1, by decide, by decide⟩⟩

/-! ### Claim C9 -/

theorem iterate_dilate_reach (N : ℕ) (adj : ℕ → ℕ → Bool) (input mask : ℕ → Bool) :
    ∀ (k : ℕ) (s : ℕ → Bool),
      (∀ m, s m = true → ReachSeed adj mask input m) →
      ∀ i, ((fun s => dilateStep N adj mask s)^[k] s) i = true →
        ReachSeed adj mask input i := by
  intro k
  induction k with
  | zero => intro s hs i h; exact hs i h
  | succ t ih =>
      intro s hs i h
      rw [Function.iterate_succ_apply] at h
      refine ih (dilateStep N adj mask s) ?_ i h
      intro m hm
      unfold dilateStep at hm
      rw [Bool.and_eq_true, Bool.or_eq_true] at hm
      obtain ⟨hmask, hrest⟩ := hm
      rcases hrest with hsm | hany
      · exact hs m hsm
      · rw [List.any_eq_true] at hany
        obtain ⟨j, _, hj⟩ := hany
        rw [Bool.and_eq_true] at hj
        exact ReachSeed.step j m (hs j hj.1) hj.2 hmask

theorem binary_propagation_reach (N : ℕ) (adj : ℕ → ℕ → Bool)
    (input mask : ℕ → Bool) (i : ℕ)
    (h : binary_propagation N adj input mask i = true) :
    ReachSeed adj mask input i := by
  unfold binary_propagation at h
  refine iterate_dilate_reach N adj input mask N _ ?_ i h
  intro m hm
  rw [Bool.and_eq_true] at hm
  exact ReachSeed.base m hm.1 hm.2

/-- Claim C9: when the label array contains a negative entry, the pre-pass
marks every unlabeled cell (label `0`) that is not reachable from a seed
through non-pruned cells with `-1` before the Laplacian is built, and
conversely every cell still unlabeled after the pre-pass is reachable from
a seed — the linear system is only posed over seed-connected unknowns. -/
theorem c9_prune_unreachable (nx ny nz : ℕ) (labels : List ℤ)
    (hneg : ∃ x ∈ labels, x < 0) (i : ℕ) (hi : i < labels.length)
    (h0 : labels.getD i 0 = 0)
    (hur : ¬ ReachSeed (adj6 ny nz) (maskFn labels) (seedFn labels) i) :
    (prePassLabels (nx * ny * nz) (adj6 ny nz) labels).getD i 0 = -1 ∧
    ∀ k, k < labels.length →
      (prePassLabels (nx * ny * nz) (adj6 ny nz) labels).getD k 0 = 0 →
      ReachSeed (adj6 ny nz) (maskFn labels) (seedFn labels) k := by
  obtain ⟨x, hx, hxneg⟩ := hneg
  have hb : labels.any (fun l => decide (l < 0)) = true :=
    List.any_eq_true.2 ⟨x, hx, by simpa using hxneg⟩
  constructor
  · unfold prePassLabels
    rw [if_pos hb, getD_range_map _ _ _ _ hi]
    have hprop : binary_propagation (nx * ny * nz) (adj6 ny nz) (seedFn labels)
        (maskFn labels) i = false := by
      rcases Bool.eq_false_or_eq_true (binary_propagation (nx * ny * nz)
        (adj6 ny nz) (seedFn labels) (maskFn labels) i) with ht | hf
      · exact absurd (binary_propagation_reach _ _ _ _ i ht) hur
      · exact hf
    rw [if_pos ⟨hprop, h0⟩]
  · intro k hk h0k
    unfold prePassLabels at h0k
    rw [if_pos hb, getD_range_map _ _ _ _ hk] at h0k
    by_cases hc : binary_propagation (nx * ny * nz) (adj6 ny nz) (seedFn labels)
        (maskFn labels) k = false ∧ labels.getD k 0 = 0
    · rw [if_pos hc] at h0k
      cases h0k
    · rw [if_neg hc] at h0k
      have hprop : binary_propagation (nx * ny * nz) (adj6 ny nz) (seedFn labels)
          (maskFn labels) k = true := by
        rcases Bool.eq_false_or_eq_true (binary_propagation (nx * ny * nz)
          (adj6 ny nz) (seedFn labels) (maskFn labels) k) with ht | hf
        · exact ht
        · exact absurd ⟨hf, h0k⟩ hc
      exact binary_propagation_reach _ _ _ _ k hprop

/-- On the 3-cell line `[1, -1, 0]`, only the seed cell 0 is reachable:
cell 2 is cut off by the pruned cell 1. -/
theorem reach_line_example :
    ∀ m, ReachSeed (adj6 1 1) (maskFn [1, -1, 0]) (seedFn [1, -1, 0]) m → m = 0 := by
  intro m h
  induction h with
  | base i hs hm =>
      rcases Nat.lt_or_ge i 3 with hlt | hge
      · interval_cases i
        · rfl
        · exact absurd hs (by decide)
        · exact absurd hs (by decide)
      · exfalso
        rw [seedFn] at hs
        have h3 : ([1, -1, 0] : List ℤ).getD i 0 = 0 := by
          rw [List.getD_eq_getElem?_getD, List.getElem?_eq_none (by simpa using hge)]
          rfl
        rw [h3] at hs
        exact absurd hs (by decide)
  | step j i hj ha hm ih =>
      subst ih
      have hi1 : i = 1 := by
        simp only [adj6, coordsOf, Nat.mul_one, Nat.div_one, Nat.mod_one,
          decide_eq_true_eq] at ha
        omega
      rw [hi1] at hm
      exact absurd hm (by decide)

/-- Witness for `c9_prune_unreachable` on the line `[1, -1, 0]`: the
unreachable zero cell 2 is re-marked `-1`. -/
theorem c9_witness :
    (prePassLabels (3 * 1 * 1) (adj6 1 1) [1, -1, 0]).getD 2 0 = -1 :=
  (c9_prune_unreachable 3 1 1 [1, -1, 0] ⟨-1, by decide, by decide⟩ 2
    (by decide) (by decide)
    (fun hr => absurd (reach_line_example 2 hr) (by decide))).1

/-! ### Claim C5 -/

theorem finset_sum_list_sum {α : Type} (L : List α) (g : α → ℕ → ℚ) (s : Finset ℕ) :
    ∑ j ∈ s, (L.map (fun e => g e j)).sum = (L.map (fun e => ∑ j ∈ s, g e j)).sum := by
  induction L with
  | nil => simp
  | cons a t ih => simp [Finset.sum_add_distrib, ih]

theorem edge_lt_pixelNb (edges : List (ℕ × ℕ)) (e : ℕ × ℕ) (he : e ∈ edges) :
    e.1 < pixelNb edges ∧ e.2 < pixelNb edges := by
  have h1 : max e.1 e.2 ≤ (edges.map (fun e => max e.1 e.2)).foldr max 0 :=
    le_foldr_max _ 0 _ (List.mem_map_of_mem _ he)
  unfold pixelNb
  constructor
  · exact Nat.lt_succ_of_le (le_trans (le_max_left _ _) h1)
  · exact Nat.lt_succ_of_le (le_trans (le_max_right _ _) h1)

theorem lapOffdiag_row_sum (ews : List ((ℕ × ℕ) × ℚ)) (n i : ℕ)
    (hb : ∀ ew ∈ ews, ew.1.1 < n ∧ ew.1.2 < n) :
    ∑ j ∈ Finset.range n, lapOffdiagEntry ews i j =
      (ews.map (fun ew => (if ew.1.1 = i then -ew.2 else 0) +
                          (if ew.1.2 = i then -ew.2 else 0))).sum := by
  unfold lapOffdiagEntry
  rw [finset_sum_list_sum]
  congr 1
  apply List.map_congr_left
  intro ew hew
  obtain ⟨h1, h2⟩ := hb ew hew
  rw [Finset.sum_add_distrib]
  congr 1
  · rw [Finset.sum_congr rfl
      (fun j _ => ite_and (ew.1.1 = i) (ew.1.2 = j) (-ew.2) 0)]
    by_cases hc : ew.1.1 = i
    · simp only [hc, if_pos rfl, if_true]
      rw [Finset.sum_ite_eq]
      simp [h2]
    · simp [hc]
  · rw [Finset.sum_congr rfl
      (fun j _ => ite_and (ew.1.2 = i) (ew.1.1 = j) (-ew.2) 0)]
    by_cases hc : ew.1.2 = i
    · simp only [hc, if_pos rfl, if_true]
      rw [Finset.sum_ite_eq]
      simp [h1]
    · simp [hc]

theorem lapOffdiag_symm (ews : List ((ℕ × ℕ) × ℚ)) (i j : ℕ) :
    lapOffdiagEntry ews i j = lapOffdiagEntry ews j i := by
  unfold lapOffdiagEntry
  congr 1
  apply List.map_congr_left
  intro ew _
  rw [add_comm]
  exact congrArg₂ (· + ·) (if_congr and_comm rfl rfl) (if_congr and_comm rfl rfl)

theorem lapOffdiag_row_zero (ews : List ((ℕ × ℕ) × ℚ)) (n i : ℕ)
    (hb : ∀ ew ∈ ews, ew.1.1 < n ∧ ew.1.2 < n) (hi : n ≤ i) (j : ℕ) :
    lapOffdiagEntry ews i j = 0 := by
  unfold lapOffdiagEntry
  apply List.sum_eq_zero
  intro x hx
  obtain ⟨ew, hew, hval⟩ := List.mem_map.1 hx
  obtain ⟨h1, h2⟩ := hb ew hew
  rw [← hval, if_neg (fun hc => by omega), if_neg (fun hc => by omega)]
  simp

/-- Claim C5: for every edge list with positive weights, the matrix built by
`_make_laplacian_sparse` has rows summing to exactly zero, is symmetric, and
every diagonal entry inside the matrix equals the negated sum of the
off-diagonal entries of its row. -/
theorem c5_laplacian_invariant (edges : List (ℕ × ℕ)) (weights : List ℚ)
    (hlen : weights.length = edges.length) (hw : ∀ w ∈ weights, 0 < w) :
    (∀ i, ∑ j ∈ Finset.range (pixelNb edges),
        make_laplacian_sparse edges weights i j = 0) ∧
    (∀ i j, make_laplacian_sparse edges weights i j =
        make_laplacian_sparse edges weights j i) ∧
    (∀ i, i < pixelNb edges → make_laplacian_sparse edges weights i i =
        -∑ j ∈ (Finset.range (pixelNb edges)).erase i,
          make_laplacian_sparse edges weights i j) := by
  have hb : ∀ ew ∈ edges.zip weights, ew.1.1 < pixelNb edges ∧
      ew.1.2 < pixelNb edges := by
    rintro ⟨⟨a, b⟩, w⟩ hew
    exact edge_lt_pixelNb edges (a, b) (List.of_mem_zip hew).1
  refine ⟨?_, ?_, ?_⟩
  · intro i
    unfold make_laplacian_sparse
    rw [Finset.sum_add_distrib]
    by_cases hi : i < pixelNb edges
    · have hdiag : ∑ j ∈ Finset.range (pixelNb edges),
          (if i = j ∧ i < pixelNb edges then
            lapConnect (edges.zip weights) (pixelNb edges) i else 0) =
          lapConnect (edges.zip weights) (pixelNb edges) i := by
        rw [Finset.sum_congr rfl (fun j _ => ite_and (i = j) (i < pixelNb edges)
          (lapConnect (edges.zip weights) (pixelNb edges) i) 0)]
        rw [Finset.sum_congr rfl (fun j _ => if_congr Iff.rfl (if_pos hi) rfl)]
        rw [Finset.sum_ite_eq]
        simp [hi]
      rw [hdiag]
      unfold lapConnect
      ring
    · have hdiag : ∑ j ∈ Finset.range (pixelNb edges),
          (if i = j ∧ i < pixelNb edges then
            lapConnect (edges.zip weights) (pixelNb edges) i else 0) = 0 := by
        apply Finset.sum_eq_zero
        intro j _
        rw [if_neg (fun hc => hi hc.2)]
      rw [hdiag]
      rw [Finset.sum_congr rfl (fun j _ =>
        lapOffdiag_row_zero (edges.zip weights) (pixelNb edges) i hb
          (le_of_not_lt hi) j)]
      simp
  · intro i j
    unfold make_laplacian_sparse
    by_cases h : i = j
    · subst h; rfl
    · rw [if_neg (fun hc => h hc.1), if_neg (fun hc => h hc.1.symm)]
      rw [lapOffdiag_symm]
  · intro i hi
    have herase : ∑ j ∈ (Finset.range (pixelNb edges)).erase i,
        make_laplacian_sparse edges weights i j =
        ∑ j ∈ (Finset.range (pixelNb edges)).erase i,
          lapOffdiagEntry (edges.zip weights) i j := by
      apply Finset.sum_congr rfl
      intro j hj
      unfold make_laplacian_sparse
      rw [if_neg (fun hc => (Finset.mem_erase.1 hj).1 hc.1.symm)]
      simp
    have hsplit : ∑ j ∈ (Finset.range (pixelNb edges)).erase i,
        lapOffdiagEntry (edges.zip weights) i j +
        lapOffdiagEntry (edges.zip weights) i i =
        ∑ j ∈ Finset.range (pixelNb edges),
          lapOffdiagEntry (edges.zip weights) i j :=
      Finset.sum_erase_add _ _ (Finset.mem_range.2 hi)
    rw [herase]
    unfold make_laplacian_sparse
    rw [if_pos ⟨rfl, hi⟩]
    unfold lapConnect
    linarith

/-- Witness for `c5_laplacian_invariant` on the edges of a 3-node path. -/
theorem c5_witness :
    ([(1 : ℚ)/1, 2/1] : List ℚ).length = ([(0, 1), (1, 2)] : List (ℕ × ℕ)).length ∧
    (∀ w ∈ ([(1 : ℚ)/1, 2/1] : List ℚ), 0 < w) ∧
    ∀ i, ∑ j ∈ Finset.range (pixelNb [(0, 1), (1, 2)]),
      make_laplacian_sparse [(0, 1), (1, 2)] [(1 : ℚ)/1, 2/1] i j = 0 :=
  ⟨rfl, by norm_num,
   (c5_laplacian_invariant [(0, 1), (1, 2)] [(1 : ℚ)/1, 2/1] (by norm_num)
     (by norm_num)).1⟩

/-! ### Claim C6 -/

theorem sum_map_const {α : Type} (l : List α) (m : ℕ) :
    (l.map (fun _ => m)).sum = l.length * m := by
  induction l with
  | nil => simp
  | cons a t ih => simp [ih, Nat.succ_mul, Nat.add_comm]

theorem gridTriples_length (a b c : ℕ) :
    (gridTriples a b c).length = a * b * c := by
  unfold gridTriples
  rw [List.length_flatMap]
  have hinner : ∀ x : ℕ,
      (((List.range b).flatMap (fun y => (List.range c).map (fun z => (x, y, z)))).length) =
        b * c := by
    intro x
    rw [List.length_flatMap]
    calc ((List.range b).map
            (List.length ∘ fun y => (List.range c).map (fun z => (x, y, z)))).sum
        = ((List.range b).map (fun _ => c)).sum := by
          congr 1
          exact List.map_congr_left (fun y _ => by simp)
      _ = b * c := by rw [sum_map_const]; simp
  calc ((List.range a).map
          (List.length ∘ fun x =>
            (List.range b).flatMap (fun y => (List.range c).map (fun z => (x, y, z))))).sum
      = ((List.range a).map (fun _ => b * c)).sum := by
        congr 1
        exact List.map_congr_left (fun x _ => hinner x)
    _ = a * b * c := by rw [sum_map_const]; simp [Nat.mul_assoc]

theorem mem_gridTriples (a b c : ℕ) (t : ℕ × ℕ × ℕ) (h : t ∈ gridTriples a b c) :
    t.1 < a ∧ t.2.1 < b ∧ t.2.2 < c := by
  unfold gridTriples at h
  rw [List.mem_flatMap] at h
  obtain ⟨x, hx, h⟩ := h
  rw [List.mem_flatMap] at h
  obtain ⟨y, hy, h⟩ := h
  rw [List.mem_map] at h
  obtain ⟨z, hz, h⟩ := h
  rw [List.mem_range] at hx hy
  rw [List.mem_range] at hz
  rw [← h]
  exact ⟨hx, hy, hz⟩

theorem gridTriples_nodup (a b c : ℕ) : (gridTriples a b c).Nodup := by
  unfold gridTriples
  rw [List.nodup_flatMap]
  constructor
  · intro x _
    rw [List.nodup_flatMap]
    constructor
    · intro y _
      exact (List.nodup_range c).map
        (fun z1 z2 h => by simpa using congrArg (fun t : ℕ × ℕ × ℕ => t.2.2) h)
    · apply List.Pairwise.imp ?_ (List.nodup_range b)
      intro y1 y2 hne t ht1 ht2
      rw [List.mem_map] at ht1 ht2
      obtain ⟨z1, -, hz1⟩ := ht1
      obtain ⟨z2, -, hz2⟩ := ht2
      have h12 := congrArg (fun t : ℕ × ℕ × ℕ => t.2.1) (hz1.trans hz2.symm)
      simp at h12
      exact hne h12
  · apply List.Pairwise.imp ?_ (List.nodup_range a)
    intro x1 x2 hne t ht1 ht2
    rw [List.mem_flatMap] at ht1 ht2
    obtain ⟨y1, -, ht1⟩ := ht1
    obtain ⟨y2, -, ht2⟩ := ht2
    rw [List.mem_map] at ht1 ht2
    obtain ⟨z1, -, hz1⟩ := ht1
    obtain ⟨z2, -, hz2⟩ := ht2
    have h12 := congrArg (fun t : ℕ × ℕ × ℕ => t.1) (hz1.trans hz2.symm)
    simp at h12
    exact hne h12

theorem coordsOf_vtx (ny nz x y z : ℕ) (hy : y < ny) (hz : z < nz) :
    coordsOf ny nz (vtx ny nz x y z) = (x, y, z) := by
  have hnz : 0 < nz := by omega
  have hny : 0 < ny := by omega
  have hmod : ((x * ny + y) * nz + z) % nz = z := by
    rw [Nat.mul_comm (x * ny + y) nz, Nat.mul_add_mod, Nat.mod_eq_of_lt hz]
  have hdiv : ((x * ny + y) * nz + z) / nz = x * ny + y := by
    rw [Nat.mul_comm (x * ny + y) nz, Nat.mul_add_div hnz, Nat.div_eq_of_lt hz,
      Nat.add_zero]
  have hdivy : ((x * ny + y) * nz + z) / nz % ny = y := by
    rw [hdiv, Nat.mul_comm x ny, Nat.mul_add_mod, Nat.mod_eq_of_lt hy]
  have hlt : y * nz + z < ny * nz := by
    calc y * nz + z < y * nz + nz := by omega
      _ = (y + 1) * nz := by ring
      _ ≤ ny * nz := Nat.mul_le_mul_right nz (Nat.succ_le_of_lt hy)
  have hdivx : ((x * ny + y) * nz + z) / (ny * nz) = x := by
    have hrw : (x * ny + y) * nz + z = ny * nz * x + (y * nz + z) := by ring
    rw [hrw, Nat.mul_add_div (Nat.mul_pos hny hnz), Nat.div_eq_of_lt hlt,
      Nat.add_zero]
  unfold coordsOf vtx
  rw [hmod, hdivy, hdivx]

theorem vtx_inj (ny nz x1 y1 z1 x2 y2 z2 : ℕ) (hy1 : y1 < ny) (hz1 : z1 < nz)
    (hy2 : y2 < ny) (hz2 : z2 < nz)
    (h : vtx ny nz x1 y1 z1 = vtx ny nz x2 y2 z2) :
    x1 = x2 ∧ y1 = y2 ∧ z1 = z2 := by
  have h1 := coordsOf_vtx ny nz x1 y1 z1 hy1 hz1
  have h2 := coordsOf_vtx ny nz x2 y2 z2 hy2 hz2
  rw [h, h2] at h1
  simp only [Prod.mk.injEq] at h1
  exact ⟨h1.1.symm, h1.2.1.symm, h1.2.2.symm⟩

theorem nodup_fst_vtx_map (a b c ny nz : ℕ) (hb : b ≤ ny) (hc : c ≤ nz) :
    ((gridTriples a b c).map (fun t => vtx ny nz t.1 t.2.1 t.2.2)).Nodup := by
  apply List.Nodup.map_on ?_ (gridTriples_nodup a b c)
  rintro ⟨a1, b1, c1⟩ ht1 ⟨a2, b2, c2⟩ ht2 heq
  obtain ⟨hx1, hy1, hz1⟩ := mem_gridTriples _ _ _ _ ht1
  obtain ⟨hx2, hy2, hz2⟩ := mem_gridTriples _ _ _ _ ht2
  obtain ⟨ex, ey, ez⟩ := vtx_inj ny nz a1 b1 c1 a2 b2 c2 (lt_of_lt_of_le hy1 hb)
    (lt_of_lt_of_le hz1 hc) (lt_of_lt_of_le hy2 hb) (lt_of_lt_of_le hz2 hc) heq
  simp [ex, ey, ez]

theorem edgesDeep_nodup (nx ny nz : ℕ) : (edgesDeep nx ny nz).Nodup := by
  apply List.Nodup.of_map Prod.fst
  rw [edgesDeep, List.map_map]
  exact nodup_fst_vtx_map nx ny (nz - 1) ny nz le_rfl (Nat.sub_le nz 1)

theorem edgesRight_nodup (nx ny nz : ℕ) : (edgesRight nx ny nz).Nodup := by
  apply List.Nodup.of_map Prod.fst
  rw [edgesRight, List.map_map]
  exact nodup_fst_vtx_map nx (ny - 1) nz ny nz (Nat.sub_le ny 1) le_rfl

theorem edgesDown_nodup (nx ny nz : ℕ) : (edgesDown nx ny nz).Nodup := by
  apply List.Nodup.of_map Prod.fst
  rw [edgesDown, List.map_map]
  exact nodup_fst_vtx_map (nx - 1) ny nz ny nz le_rfl le_rfl

theorem adj6_of_coords (ny nz i j xi yi zi xj yj zj : ℕ)
    (hi : coordsOf ny nz i = (xi, yi, zi)) (hj : coordsOf ny nz j = (xj, yj, zj))
    (h : (xi = xj ∧ yi = yj ∧ (zi + 1 = zj ∨ zj + 1 = zi)) ∨
         (xi = xj ∧ zi = zj ∧ (yi + 1 = yj ∨ yj + 1 = yi)) ∨
         (yi = yj ∧ zi = zj ∧ (xi + 1 = xj ∨ xj + 1 = xi))) :
    adj6 ny nz i j = true := by
  simp only [adj6, hi, hj, decide_eq_true_eq]
  exact h

theorem make_edges_adjacent (nx ny nz : ℕ) (e : ℕ × ℕ)
    (he : e ∈ make_edges_3d nx ny nz) : adj6 ny nz e.1 e.2 = true := by
  unfold make_edges_3d at he
  rw [List.mem_append, List.mem_append] at he
  rcases he with (hd | hr) | hdn
  · rw [edgesDeep, List.mem_map] at hd
    obtain ⟨t, ht, hte⟩ := hd
    obtain ⟨hx, hy, hz⟩ := mem_gridTriples _ _ _ _ ht
    subst hte
    exact adj6_of_coords ny nz _ _ t.1 t.2.1 t.2.2 t.1 t.2.1 (t.2.2 + 1)
      (coordsOf_vtx ny nz _ _ _ hy (by omega)) (coordsOf_vtx ny nz _ _ _ hy (by omega))
      (Or.inl ⟨rfl, rfl, Or.inl rfl⟩)
  · rw [edgesRight, List.mem_map] at hr
    obtain ⟨t, ht, hte⟩ := hr
    obtain ⟨hx, hy, hz⟩ := mem_gridTriples _ _ _ _ ht
    subst hte
    exact adj6_of_coords ny nz _ _ t.1 t.2.1 t.2.2 t.1 (t.2.1 + 1) t.2.2
      (coordsOf_vtx ny nz _ _ _ (by omega) hz) (coordsOf_vtx ny nz _ _ _ (by omega) hz)
      (Or.inr (Or.inl ⟨rfl, rfl, Or.inl rfl⟩))
  · rw [edgesDown, List.mem_map] at hdn
    obtain ⟨t, ht, hte⟩ := hdn
    obtain ⟨hx, hy, hz⟩ := mem_gridTriples _ _ _ _ ht
    subst hte
    exact adj6_of_coords ny nz _ _ t.1 t.2.1 t.2.2 (t.1 + 1) t.2.1 t.2.2
      (coordsOf_vtx ny nz _ _ _ hy hz) (coordsOf_vtx ny nz _ _ _ hy hz)
      (Or.inr (Or.inr ⟨rfl, rfl, Or.inl rfl⟩))

/-- Claim C6: for positive grid dimensions, `_make_edges_3d` produces
exactly `n_x·n_y·(n_z-1) + n_x·(n_y-1)·n_z + (n_x-1)·n_y·n_z` edges, each an
axis-adjacent pair of flattened lattice indices, with no duplicate edge
within any axis direction. -/
theorem c6_lattice_edges (nx ny nz : ℕ) (hx : 0 < nx) (hy : 0 < ny)
    (hz : 0 < nz) :
    (make_edges_3d nx ny nz).length =
      nx * ny * (nz - 1) + nx * (ny - 1) * nz + (nx - 1) * ny * nz ∧
    (∀ e ∈ make_edges_3d nx ny nz, adj6 ny nz e.1 e.2 = true) ∧
    (edgesDeep nx ny nz).Nodup ∧ (edgesRight nx ny nz).Nodup ∧
    (edgesDown nx ny nz).Nodup := by
  refine ⟨?_, make_edges_adjacent nx ny nz, edgesDeep_nodup nx ny nz,
    edgesRight_nodup nx ny nz, edgesDown_nodup nx ny nz⟩
  unfold make_edges_3d edgesDeep edgesRight edgesDown
  rw [List.length_append, List.length_append, List.length_map, List.length_map,
    List.length_map, gridTriples_length, gridTriples_length, gridTriples_length]

/-- Witness for `c6_lattice_edges` on a `2 × 3 × 4` grid. -/
theorem c6_witness :
    (make_edges_3d 2 3 4).length =
      2 * 3 * (4 - 1) + 2 * (3 - 1) * 4 + (2 - 1) * 3 * 4 :=
  (c6_lattice_edges 2 3 4 (by decide) (by decide) (by decide)).1

/-! ### Claim C3 -/

/-- Claim C3 fails on the code: for the constant `2 × 2` zero image with the
default `beta = 130` and the `eps = 1e-10` floor that `_build_laplacian`
passes, `_compute_weights_3d` divides `beta` by `10 * std = 0`, producing
`+inf`, and then multiplies the all-zero squared gradients by it, so every
edge weight is `0 * inf = NaN` — not a finite non-zero weight.  The `eps`
floor cannot repair this, since `NaN + eps = NaN`. -/
theorem c3_constant_image_nan :
    compute_weights_3d (make_edges_3d 2 2 1) 2 2 1 (fun _ _ _ => 0) 130
        (1 / 10 ^ 10) = List.replicate 4 FpVal.nan ∧
      ¬ FpVal.nan.isFinNonzero := by
  constructor
  · have hgt : gridTriples 2 2 1 = [(0, 0, 0), (0, 1, 0), (1, 0, 0), (1, 1, 0)] := by
      decide
    have hgt0 : gridTriples 2 2 (1 - 1) = [] := by decide
    have hgt2 : gridTriples 2 (2 - 1) 1 = [(0, 0, 0), (1, 0, 0)] := by decide
    have hgt3 : gridTriples (2 - 1) 2 1 = [(0, 0, 0), (0, 1, 0)] := by decide
    have hflat : flatData 2 2 1 (fun _ _ _ => (0 : ℝ)) = [0, 0, 0, 0] := by
      unfold flatData
      rw [hgt]
      rfl
    have hgrad : compute_gradients_3d 2 2 1 (fun _ _ _ => (0 : ℝ)) = [0, 0, 0, 0] := by
      unfold compute_gradients_3d
      rw [hgt0, hgt2, hgt3]
      norm_num
    have hstd : npStd ([0, 0, 0, 0] : List ℝ) = 0 := by
      unfold npStd
      norm_num
    have hdiv : fpDiv (.fin 130) (.fin (10 * npStd ([0, 0, 0, 0] : List ℝ))) =
        .inf := by
      rw [hstd]
      norm_num [fpDiv]
    simp only [compute_weights_3d]
    rw [hgrad, hflat, hdiv]
    norm_num [fpMul, fpNeg, fpExp, fpAdd, List.replicate]
  · exact fun h => h
